import Mathlib

set_option maxHeartbeats 1000000

/-!
Verification development for `src/data/calculate_performance_metrics.py`.

The Python source is shallowly embedded: JSON documents become the inductive
type `JVal`, Python strings become Lean `String`s, Python floats become exact
rationals `ℚ` (every division the program performs is guarded, so the values
are exact fractions of integers), and each Python function becomes a Lean
function with the same branch structure.
-/

namespace RenameMetrics

/-- JSON-like values as produced by Python `json.load`.  Numbers are modelled
as rationals: the integer literals occurring in input documents embed as
integral rationals, and the program's own computed metrics are exact
fractions. -/
inductive JVal where
  | null
  | bool (b : Bool)
  | num (q : ℚ)
  | str (s : String)
  | arr (elems : List JVal)
  | obj (fields : List (String × JVal))

/-- Python `x is None` test on a JSON value. -/
def JVal.isNull : JVal → Bool
  | .null => true
  | _ => false

/-- Rendering of a rational the way Python `str` renders the integers that
occur in the documents in scope (integral values print without a fraction). -/
def ratStr (q : ℚ) : String :=
  if q.den = 1 then toString q.num else toString q.num ++ "/" ++ toString q.den

mutual

/-- Python `repr` of a parsed JSON value (`None`, `True`, quoted strings,
bracketed lists, braced dicts). -/
def jrepr : JVal → String
  | .null => "None"
  | .bool true => "True"
  | .bool false => "False"
  | .num q => ratStr q
  | .str s => "\x27" ++ s ++ "\x27"
  | .arr elems => "[" ++ String.intercalate ", " (jreprList elems) ++ "]"
  | .obj fields => "\x7b" ++ String.intercalate ", " (jreprFields fields) ++ "\x7d"

/-- `repr` of each element of a parsed JSON list. -/
def jreprList : List JVal → List String
  | [] => []
  | v :: vs => jrepr v :: jreprList vs

/-- `repr` of each `key: value` binding of a parsed JSON object. -/
def jreprFields : List (String × JVal) → List String
  | [] => []
  | (k, v) :: fs => ("\x27" ++ k ++ "\x27: " ++ jrepr v) :: jreprFields fs

end

/-- Python `str(...)` applied to a parsed JSON value: identical to `repr`
except that a string renders without quotes.  (The shallow cases are spelled
out so that they reduce without entering the nested recursion of `jrepr`.) -/
def jstr : JVal → String
  | .str s => s
  | .null => "None"
  | .bool true => "True"
  | .bool false => "False"
  | .num q => ratStr q
  | v => jrepr v

/-- Python dict lookup on a parsed JSON object (keys of a parsed object are
distinct, so first-match association-list lookup is faithful). -/
def lookupField : List (String × JVal) → String → Option JVal
  | [], _ => none
  | (k, v) :: fs, key => if k = key then some v else lookupField fs key

/-- Python `item.get(key)` for a dict-shaped value (`none` when the key is
absent; the records the program processes are dicts). -/
def itemGet : JVal → String → Option JVal
  | .obj fields, key => lookupField fields key
  | _, _ => none

/-- Python dict assignment `d[key] = v`: replace the value of an existing key,
otherwise append the new binding. -/
def setFieldList : List (String × JVal) → String → JVal → List (String × JVal)
  | [], key, v => [(key, v)]
  | (k, w) :: fs, key, v =>
      if k = key then (k, v) :: fs else (k, w) :: setFieldList fs key v

/-- Python dict assignment lifted to `JVal` (the program only assigns into
dict-shaped records). -/
def setField : JVal → String → JVal → JVal
  | .obj fields, key, v => .obj (setFieldList fields key v)
  | other, _, _ => other

/-- The value of `suggestion["name"]` for a suggestion that passed the
validity check (defaults to `null` otherwise; never reached on invalid
entries). -/
def nameOf : JVal → JVal
  | .obj fields => (lookupField fields "name").getD .null
  | _ => .null

/-- Embedding of the dataclass `MetricResult` of the source: the five metric
fields of one evaluation.  `exact_match` is a Python int (0 or 1), the other
fields are guarded exact divisions, embedded as rationals. -/
structure MetricResult where
  exact_match : ℕ
  edit_similarity : ℚ
  token_precision : ℚ
  token_recall : ℚ
  token_f1 : ℚ
deriving DecidableEq, Repr

/-- `MetricResult.empty()` of the source: the zeroed-out metric result. -/
def MetricResult.empty : MetricResult := ⟨0, 0, 0, 0, 0⟩

/-! ### IdentifierTokenizer -/

/-- Python `\w` character class (letter, digit or underscore; the identifiers
in scope are ASCII, so ASCII classification is used). -/
def isWordChar (c : Char) : Bool := c.isAlpha || c.isDigit || c = '_'

/-- Embedding of `re.sub(r'([A-Z]+)([A-Z][a-z])', r'\1 \2', s)`.
A leftmost-greedy match of this pattern exists exactly where a maximal run of
two-or-more uppercase letters is followed by a lowercase letter, and the
greedy group split inserts the single space just before the last uppercase
letter of the run, i.e. between consecutive characters `c1 c2` with `c1`
uppercase, `c2` uppercase and the next character lowercase.  Since a
replacement consumes through the lowercase letter and no new match can start
on a lowercase letter, scanning every such window of the original string is
equivalent to the regex's non-overlapping scan. -/
def acronymSub : List Char → List Char
  | c1 :: c2 :: c3 :: rest =>
      if c1.isUpper && c2.isUpper && c3.isLower then
        c1 :: ' ' :: acronymSub (c2 :: c3 :: rest)
      else
        c1 :: acronymSub (c2 :: c3 :: rest)
  | l => l

/-- Embedding of `re.sub(r'([a-z0-9])([A-Z])', r'\1 \2', s)`.  The pattern
consumes exactly two characters and its second character (uppercase) can
never start a following match (the first group is lowercase-or-digit), so
the regex's resume-after-match scan coincides with this sliding scan. -/
def camelSub : List Char → List Char
  | c1 :: c2 :: rest =>
      if (c1.isLower || c1.isDigit) && c2.isUpper then
        c1 :: ' ' :: camelSub (c2 :: rest)
      else
        c1 :: camelSub (c2 :: rest)
  | l => l

/-- Embedding of `re.sub(r'([0-9])([a-zA-Z])', r'\1 \2', s)` (same sliding
argument: a letter cannot start a new match of this pattern). -/
def digitThenLetterSub : List Char → List Char
  | c1 :: c2 :: rest =>
      if c1.isDigit && (c2.isLower || c2.isUpper) then
        c1 :: ' ' :: digitThenLetterSub (c2 :: rest)
      else
        c1 :: digitThenLetterSub (c2 :: rest)
  | l => l

/-- Embedding of `re.sub(r'([a-zA-Z])([0-9])', r'\1 \2', s)` (same sliding
argument: a digit cannot start a new match of this pattern). -/
def letterThenDigitSub : List Char → List Char
  | c1 :: c2 :: rest =>
      if (c1.isLower || c1.isUpper) && c2.isDigit then
        c1 :: ' ' :: letterThenDigitSub (c2 :: rest)
      else
        c1 :: letterThenDigitSub (c2 :: rest)
  | l => l

/-- Helper for Python `str.split()`: accumulate the current token (reversed)
and split on runs of spaces, discarding empty pieces.  After the earlier
substitution steps the only whitespace character present is `' '`. -/
def splitWsGo : List Char → List Char → List (List Char)
  | [], acc => if acc.isEmpty then [] else [acc.reverse]
  | c :: rest, acc =>
      if c = ' ' then
        if acc.isEmpty then splitWsGo rest [] else acc.reverse :: splitWsGo rest []
      else
        splitWsGo rest (c :: acc)

/-- Python `str.split()` (split on whitespace, dropping empty tokens). -/
def splitWs (l : List Char) : List (List Char) := splitWsGo l []

/-- Embedding of `IdentifierTokenizer.tokenize`: the five substitution steps
of the source in order, then split-and-lowercase.  `if not identifier` is the
empty-string test. -/
def tokenize (identifier : String) : List String :=
  if identifier = "" then []
  else
    let s1 := identifier.data.map (fun c => if isWordChar c then c else ' ')
    let s2 := s1.map (fun c => if c = '_' then ' ' else c)
    let s3 := acronymSub s2
    let s4 := camelSub s3
    let s5 := digitThenLetterSub s4
    let s6 := letterThenDigitSub s5
    (splitWs s6).map (fun t => String.mk (t.map Char.toLower))

/-! ### StringDistanceCalculator -/

/-- Embedding of the inner loop of `calculate_levenshtein_distance`: walking
`s2` while consuming the previous row (`d` is `previous_row[j]`, `u` is
`previous_row[j + 1]`, `left` is the entry just appended to `current_row`);
each step appends
`min(previous_row[j+1] + 1, current_row[j] + 1, previous_row[j] + (c1 != c2))`. -/
def levInner (c1 : Char) : List Char → List Nat → Nat → List Nat
  | c2 :: s2rest, d :: u :: prevRest, left =>
      min (u + 1) (min (left + 1) (d + (if c1 = c2 then 0 else 1))) ::
        levInner c1 s2rest (u :: prevRest)
          (min (u + 1) (min (left + 1) (d + (if c1 = c2 then 0 else 1))))
  | _, _, _ => []

/-- Embedding of the outer loop of `calculate_levenshtein_distance`: for each
character of `s1` (with index `i`) build `current_row = [i + 1] ++ inner` and
make it the new previous row. -/
def levRows : List Char → List Char → Nat → List Nat → List Nat
  | [], _, _, prev => prev
  | c1 :: s1rest, s2, i, prev =>
      levRows s1rest s2 (i + 1) ((i + 1) :: levInner c1 s2 prev (i + 1))

/-- Body of `calculate_levenshtein_distance` after the length-ordering swap:
the `len(s2) == 0` early return, then the row dynamic programming starting
from `previous_row = range(len(s2) + 1)`, answering `previous_row[-1]`. -/
def levenshteinGo (s1 s2 : List Char) : Nat :=
  if s2.length = 0 then s1.length
  else (levRows s1 s2 0 (List.range (s2.length + 1))).getLastD 0

/-- Embedding of `StringDistanceCalculator.calculate_levenshtein_distance`:
swap the arguments once when `len(s1) < len(s2)` (the recursive call in the
source immediately proceeds to the body), then run the row DP. -/
def calculate_levenshtein_distance (s1 s2 : String) : Nat :=
  if s1.data.length < s2.data.length then levenshteinGo s2.data s1.data
  else levenshteinGo s1.data s2.data

/-- Embedding of `StringDistanceCalculator.calculate_similarity`. -/
def calculate_similarity (s1 s2 : String) : ℚ :=
  if s1 = s2 then 1
  else
    if max s1.data.length s2.data.length = 0 then 1
    else 1 - (calculate_levenshtein_distance s1 s2 : ℚ) /
      ((max s1.data.length s2.data.length : ℕ) : ℚ)

/-! ### RenamePredictionEvaluator -/

/-- Embedding of `sum(Counter(l).values())`: the counts of the distinct
tokens, summed. -/
def bagTotal (l : List String) : Nat :=
  (l.dedup.map (fun t => l.count t)).sum

/-- Embedding of `sum((Counter(g) & Counter(p)).values())`: Python's
`Counter.__and__` keeps, for each distinct key of `g`, the minimum of the two
counts (entries with minimum zero contribute nothing to the sum). -/
def interTotal (g p : List String) : Nat :=
  (g.dedup.map (fun t => min (g.count t) (p.count t))).sum

/-- Embedding of `RenamePredictionEvaluator.evaluate` (the constructor
computes the token bags and totals; `evaluate` assembles the five fields,
each division guarded exactly as in the source). -/
def evaluate (ground_truth prediction : String) : MetricResult :=
  let g := tokenize ground_truth
  let p := tokenize prediction
  let interT := interTotal g p
  let pTot := bagTotal p
  let gTot := bagTotal g
  let prec : ℚ := if pTot = 0 then 0 else (interT : ℚ) / (pTot : ℚ)
  let recl : ℚ := if gTot = 0 then 0 else (interT : ℚ) / (gTot : ℚ)
  { exact_match := if ground_truth = prediction then 1 else 0
    edit_similarity := calculate_similarity ground_truth prediction
    token_precision := prec
    token_recall := recl
    token_f1 :=
      if gTot = 0 ∧ pTot = 0 then 1
      else if prec + recl = 0 then 0
      else 2 * (prec * recl) / (prec + recl) }

/-! ### BatchResultProcessor: candidate selection -/

/-- Embedding of `BatchResultProcessor._is_valid_suggestion` (the `warn`
parameter only controls printing): a dict with a `name` key whose value is
not `None`. -/
def is_valid_suggestion : JVal → Bool
  | .obj fields =>
      match lookupField fields "name" with
      | some v => !v.isNull
      | none => false
  | _ => false

/-- Embedding of `BatchResultProcessor._extract_valid_candidates`: if the
suggestions value is not a list return `[]`; otherwise truncate to the first
`limit` entries (`suggestions[:limit]`), keep the valid ones in order, and
take `str(sugg["name"])` of each. -/
def extract_valid_candidates (suggestions : JVal) (limit : Nat) : List String :=
  match suggestions with
  | .arr l => ((l.take limit).filter is_valid_suggestion).map (fun s => jstr (nameOf s))
  | _ => []

/-- The sort key of `_determine_best_candidate`:
`(token_f1, exact_match, edit_similarity, token_precision)`. -/
def metricKey (r : MetricResult) : ℚ × ℚ × ℚ × ℚ :=
  (r.token_f1, (r.exact_match : ℚ), r.edit_similarity, r.token_precision)

/-- Python's lexicographic `<` on the 4-tuples produced by `metricKey`. -/
def keyLt (p q : ℚ × ℚ × ℚ × ℚ) : Prop :=
  p.1 < q.1 ∨ (p.1 = q.1 ∧ (p.2.1 < q.2.1 ∨ (p.2.1 = q.2.1 ∧
    (p.2.2.1 < q.2.2.1 ∨ (p.2.2.1 = q.2.2.1 ∧ p.2.2.2 < q.2.2.2)))))

instance (p q : ℚ × ℚ × ℚ × ℚ) : Decidable (keyLt p q) := by
  unfold keyLt; infer_instance

/-- Non-strict comparison on key tuples. -/
def keyLe (p q : ℚ × ℚ × ℚ × ℚ) : Prop := keyLt p q ∨ p = q

instance (p q : ℚ × ℚ × ℚ × ℚ) : Decidable (keyLe p q) := by
  unfold keyLe; infer_instance

/-- Embedding of Python `max(results, key=...)`: scan the list keeping the
current maximum, replacing it only on a strictly greater key (so the first
of several key-equal maxima is kept). -/
def maxByKey : List MetricResult → MetricResult → MetricResult
  | [], best => best
  | r :: rest, best =>
      maxByKey rest (if keyLt (metricKey best) (metricKey r) then r else best)

/-- Embedding of `BatchResultProcessor._determine_best_candidate`. -/
def determine_best_candidate : List MetricResult → MetricResult
  | [] => MetricResult.empty
  | r :: rest => maxByKey rest r

/-! ### BatchResultProcessor: per-record processing and aggregation -/

/-- Ground-truth normalization in `process`:
`str(raw) if raw is not None else ""`, where `item.get("new_name")` is `None`
both when the key is absent and when its value is JSON null. -/
def normalizeGroundTruth (item : JVal) : String :=
  match itemGet item "new_name" with
  | some v => if v.isNull then "" else jstr v
  | none => ""

/-- `item.get("suggestions", [])` of the source. -/
def itemSuggestions (item : JVal) : JVal :=
  (itemGet item "suggestions").getD (.arr [])

/-- The top-1 branch of `process`: evaluate the first suggestion when the
suggestions value is a non-empty list whose first entry is valid, otherwise
the empty metric. -/
def top1Metric (gt : String) (suggs : JVal) : MetricResult :=
  match suggs with
  | .arr (first :: _) =>
      if is_valid_suggestion first then evaluate gt (jstr (nameOf first))
      else MetricResult.empty
  | _ => MetricResult.empty

/-- The top-5 branch of `process`: evaluate each extracted candidate and pick
the best. -/
def top5Metric (gt : String) (suggs : JVal) : MetricResult :=
  determine_best_candidate
    ((extract_valid_candidates suggs 5).map (fun pred => evaluate gt pred))

/-- One iteration of the loop in `process`, producing the record's two
metric tuples. -/
def processItem (item : JVal) : MetricResult × MetricResult :=
  (top1Metric (normalizeGroundTruth item) (itemSuggestions item),
   top5Metric (normalizeGroundTruth item) (itemSuggestions item))

/-- `dataclasses.asdict` of a `MetricResult`, as stored into the record. -/
def metricJson (m : MetricResult) : JVal :=
  .obj [("exact_match", .num m.exact_match),
        ("edit_similarity", .num m.edit_similarity),
        ("token_precision", .num m.token_precision),
        ("token_recall", .num m.token_recall),
        ("token_f1", .num m.token_f1)]

/-- One accumulator dict of the processor (`exact_match` accumulates a Python
int, the rest floats). -/
structure Accum where
  exact_match : ℕ
  edit_similarity : ℚ
  token_precision : ℚ
  token_recall : ℚ
  token_f1 : ℚ
deriving DecidableEq, Repr

/-- `_init_zero_metrics` of the source. -/
def Accum.zero : Accum := ⟨0, 0, 0, 0, 0⟩

/-- Embedding of `_update_accumulator`: field-wise addition. -/
def updateAccumulator (acc : Accum) (m : MetricResult) : Accum :=
  ⟨acc.exact_match + m.exact_match,
   acc.edit_similarity + m.edit_similarity,
   acc.token_precision + m.token_precision,
   acc.token_recall + m.token_recall,
   acc.token_f1 + m.token_f1⟩

/-- The record loop of `process`: thread both accumulators over the records
in order and attach `performance_metrics` to each record. -/
def processLoop : List JVal → Accum → Accum → List JVal × Accum × Accum
  | [], acc1, acc5 => ([], acc1, acc5)
  | item :: rest, acc1, acc5 =>
      let m1 := (processItem item).1
      let m5 := (processItem item).2
      let item2 := setField item "performance_metrics"
        (.obj [("top_1_performance_metrics", metricJson m1),
               ("top_5_performance_metrics", metricJson m5)])
      let out := processLoop rest (updateAccumulator acc1 m1) (updateAccumulator acc5 m5)
      (item2 :: out.1, out.2.1, out.2.2)

/-- `_init_zero_metrics` rendered as the JSON object used for the zero-record
average. -/
def zeroMetricsJson : JVal :=
  .obj [("exact_match", .num 0), ("edit_similarity", .num 0),
        ("token_precision", .num 0), ("token_recall", .num 0),
        ("token_f1", .num 0)]

/-- `get_avg_dict` of `_calculate_final_averages`: every accumulated field
divided by the record count. -/
def avgJson (acc : Accum) (n : ℕ) : JVal :=
  .obj [("exact_match", .num ((acc.exact_match : ℚ) / (n : ℚ))),
        ("edit_similarity", .num (acc.edit_similarity / (n : ℚ))),
        ("token_precision", .num (acc.token_precision / (n : ℚ))),
        ("token_recall", .num (acc.token_recall / (n : ℚ))),
        ("token_f1", .num (acc.token_f1 / (n : ℚ)))]

/-- Embedding of `_calculate_final_averages`: all-zero dicts with no division
when the record count is zero, otherwise field-wise division. -/
def calculate_final_averages (n : ℕ) (acc1 acc5 : Accum) : JVal :=
  if n = 0 then
    .obj [("top_1_performance_metrics", zeroMetricsJson),
          ("top_5_performance_metrics", zeroMetricsJson)]
  else
    .obj [("top_1_performance_metrics", avgJson acc1 n),
          ("top_5_performance_metrics", avgJson acc5 n)]

/-- `json_data.get("results", [])` of the processor's constructor (`main`
only invokes the processor when the key is present; a non-list value is not
exercised by any caller in scope). -/
def resultsOf (data : JVal) : List JVal :=
  match itemGet data "results" with
  | some (.arr l) => l
  | _ => []

/-- Embedding of `BatchResultProcessor.process`'s return value: the pair
`(final_output, aggregates)` where
`final_output = {"aggregate_performance_metrics": aggregates}` — the dict the
caller serializes to the output file.  The in-place record mutations are
returned separately by `processedRecords` below. -/
def processResult (data : JVal) : JVal × JVal :=
  let results := resultsOf data
  let folded := processLoop results Accum.zero Accum.zero
  let aggregates := calculate_final_averages results.length folded.2.1 folded.2.2
  (.obj [("aggregate_performance_metrics", aggregates)], aggregates)

/-- The records as mutated in place by `process` (each augmented with its
`performance_metrics` object). -/
def processedRecords (data : JVal) : List JVal :=
  (processLoop (resultsOf data) Accum.zero Accum.zero).1

/-- The three input situations `main` distinguishes. -/
inductive DocumentInput where
  | missingFile
  | corruptJson
  | parsed (data : JVal)

/-- The process exit code of `main` on each input situation, read off the
source's control flow: a missing file calls `sys.exit(1)`; a JSON decode
failure is caught by `except json.JSONDecodeError`, which prints an error and
falls off the end of `main` (exit code 0); a document without a top-level
`results` key raises `ValueError`, caught by `except Exception`, which prints
and likewise returns normally (exit code 0); a well-formed document is
processed to completion (exit code 0). -/
def mainExitCode : DocumentInput → Nat
  | .missingFile => 1
  | .corruptJson => 0
  | .parsed _ => 0

/-- Whether `main` reaches `BatchResultProcessor.process` on the given input:
only for a parse-able document containing the `results` key (the `ValueError`
is raised before the processor runs). -/
def mainProcessed : DocumentInput → Bool
  | .parsed data => (itemGet data "results").isSome
  | _ => false

/-- Whether `main` reports a failing condition (it prints an error message in
every non-success situation). -/
def mainReported : DocumentInput → Bool
  | .missingFile => true
  | .corruptJson => true
  | .parsed data => !(itemGet data "results").isSome

/-! ### Reference definitions (spec side)

The following definitions restate, independently of the embedding above, the
mathematical contracts of the spec: the classic Levenshtein recursion, the
multiset token metrics, and the two candidate-scan disciplines.  The claim
theorems compare the embedded code against these. -/

/-- The classic Levenshtein edit distance: insertion, deletion and
substitution each cost 1, defined by the textbook recursion on the two
strings. -/
def levenshteinSpec : List Char → List Char → Nat
  | [], b => b.length
  | _ :: as, [] => as.length + 1
  | a :: as, b :: bs =>
      min (levenshteinSpec as (b :: bs) + 1)
        (min (levenshteinSpec (a :: as) bs + 1)
          (levenshteinSpec as bs + (if a = b then 0 else 1)))
termination_by a b => (a.length, b.length)

/-- The row of prefix distances the DP maintains: for a consumed prefix `a`
of the first string and a split `t ++ r` of the second, the distances of `a`
to `t`, `t` extended by each successive character of `r`, ..., `t ++ r`. -/
def rowFor (a t : List Char) : List Char → List Nat
  | [] => [levenshteinSpec a t]
  | c :: r => levenshteinSpec a t :: rowFor a (t ++ [c]) r

/-- The token bag (multiset) of an identifier, as the spec's `TokenBag`. -/
def tokenBag (s : String) : Multiset String := (tokenize s : Multiset String)

/-- The spec's `I = Σ min(G[t], P[t])` over all tokens. -/
def refIntersection (G P : Multiset String) : ℕ :=
  ∑ t ∈ G.toFinset ∪ P.toFinset, min (G.count t) (P.count t)

/-- The spec's token precision: `I / |P|` when `|P| > 0`, else `0`. -/
def refPrecision (gt pred : String) : ℚ :=
  if 0 < Multiset.card (tokenBag pred) then
    (refIntersection (tokenBag gt) (tokenBag pred) : ℚ) /
      (Multiset.card (tokenBag pred) : ℚ)
  else 0

/-- The spec's token recall: `I / |G|` when `|G| > 0`, else `0`. -/
def refRecall (gt pred : String) : ℚ :=
  if 0 < Multiset.card (tokenBag gt) then
    (refIntersection (tokenBag gt) (tokenBag pred) : ℚ) /
      (Multiset.card (tokenBag gt) : ℚ)
  else 0

/-- The spec's token F1: `1` when both bags are empty, `0` when
`precision + recall = 0`, else the harmonic mean. -/
def refF1 (gt pred : String) : ℚ :=
  if Multiset.card (tokenBag gt) = 0 ∧ Multiset.card (tokenBag pred) = 0 then 1
  else if refPrecision gt pred + refRecall gt pred = 0 then 0
  else 2 * (refPrecision gt pred * refRecall gt pred) /
    (refPrecision gt pred + refRecall gt pred)

/-- Candidate scan in which every scanned entry consumes the cap (the
amended reading of the extraction stage: only the first `cap` entries are
examined; invalid entries among them are skipped but still use up slots). -/
def scanCandidates : List JVal → Nat → List String
  | _, 0 => []
  | [], _ => []
  | s :: rest, fuel + 1 =>
      if is_valid_suggestion s then jstr (nameOf s) :: scanCandidates rest fuel
      else scanCandidates rest fuel

/-- Candidate scan as the claim words it: scan the whole list in rank order,
skipping invalid entries without counting them against the cap, stopping only
when `cap` valid candidates have been collected or the list is exhausted. -/
def claimExtract : List JVal → Nat → List String
  | _, 0 => []
  | [], _ => []
  | s :: rest, fuel + 1 =>
      if is_valid_suggestion s then jstr (nameOf s) :: claimExtract rest fuel
      else claimExtract rest (fuel + 1)

/-- Field-wise sums of a list of metric results (the value the accumulator
is claimed to reach). -/
def sumAccum (ms : List MetricResult) : Accum :=
  ⟨(ms.map (fun m => m.exact_match)).sum,
   (ms.map (fun m => m.edit_similarity)).sum,
   (ms.map (fun m => m.token_precision)).sum,
   (ms.map (fun m => m.token_recall)).sum,
   (ms.map (fun m => m.token_f1)).sum⟩

/-- Field-wise addition of accumulators (used to state the fold lemma). -/
def accumAdd (x y : Accum) : Accum :=
  ⟨x.exact_match + y.exact_match,
   x.edit_similarity + y.edit_similarity,
   x.token_precision + y.token_precision,
   x.token_recall + y.token_recall,
   x.token_f1 + y.token_f1⟩

/-! ## Lemmas: the DP of `calculate_levenshtein_distance` computes the
classic Levenshtein distance -/

theorem levSpec_nil (b : List Char) : levenshteinSpec [] b = b.length := by
  cases b <;> simp [levenshteinSpec]

theorem levSpec_nil_right (a : List Char) : levenshteinSpec a [] = a.length := by
  cases a <;> simp [levenshteinSpec]

theorem levSpec_cons_cons (a b : Char) (as bs : List Char) :
    levenshteinSpec (a :: as) (b :: bs) =
      min (levenshteinSpec as (b :: bs) + 1)
        (min (levenshteinSpec (a :: as) bs + 1)
          (levenshteinSpec as bs + (if a = b then 0 else 1))) := by
  simp only [levenshteinSpec]

set_option maxHeartbeats 400000 in
theorem levSpec_snoc (x y : Char) (a b : List Char) :
    levenshteinSpec (a ++ [x]) (b ++ [y]) =
      min (levenshteinSpec a (b ++ [y]) + 1)
        (min (levenshteinSpec (a ++ [x]) b + 1)
          (levenshteinSpec a b + (if x = y then 0 else 1))) := by
  induction a generalizing b with
  | nil =>
    induction b with
    | nil =>
      simp only [List.nil_append, levSpec_cons_cons, levSpec_nil, levSpec_nil_right,
        List.length_nil, List.length_cons]
    | cons b0 bs ihb =>
      simp only [List.nil_append, List.cons_append, levSpec_cons_cons, levSpec_nil,
        List.length_append, List.length_cons, List.length_nil] at ihb ⊢
      by_cases hxy : x = y <;> by_cases hxb : x = b0 <;>
        simp only [hxy, hxb, if_true, if_false, reduceIte] at ihb ⊢ <;> omega
  | cons a0 as iha =>
    induction b with
    | nil =>
      have h1 := iha []
      simp only [List.nil_append, List.cons_append, levSpec_cons_cons, levSpec_nil,
        levSpec_nil_right, List.length_append, List.length_cons, List.length_nil] at h1 ⊢
      by_cases hxy : x = y <;> by_cases hab : a0 = y <;>
        simp only [hxy, hab, if_true, if_false, reduceIte] at h1 ⊢ <;> omega
    | cons b0 bs ihb =>
      have h1 := iha (b0 :: bs)
      have h3 := iha bs
      simp only [List.nil_append, List.cons_append, levSpec_cons_cons,
        List.length_append, List.length_cons, List.length_nil] at h1 h3 ihb ⊢
      set cxy := (if x = y then (0:ℕ) else 1) with hc1
      set cab := (if a0 = b0 then (0:ℕ) else 1) with hc2
      set A01 := levenshteinSpec (as ++ [x]) (b0 :: (bs ++ [y])) with hA01
      set A02 := levenshteinSpec as (b0 :: (bs ++ [y])) with hA02
      set A03 := levenshteinSpec (as ++ [x]) (b0 :: bs) with hA03
      set A04 := levenshteinSpec as (b0 :: bs) with hA04
      set A05 := levenshteinSpec (as ++ [x]) (bs ++ [y]) with hA05
      set A06 := levenshteinSpec as (bs ++ [y]) with hA06
      set A07 := levenshteinSpec (as ++ [x]) bs with hA07
      set A08 := levenshteinSpec as bs with hA08
      set A09 := levenshteinSpec (a0 :: (as ++ [x])) (bs ++ [y]) with hA09
      set A10 := levenshteinSpec (a0 :: as) (bs ++ [y]) with hA10
      set A11 := levenshteinSpec (a0 :: (as ++ [x])) bs with hA11
      set A12 := levenshteinSpec (a0 :: as) bs with hA12
      clear_value cxy cab A01 A02 A03 A04 A05 A06 A07 A08 A09 A10 A11 A12
      clear hc1 hc2 hA01 hA02 hA03 hA04 hA05 hA06 hA07 hA08 hA09 hA10 hA11 hA12 iha
      subst h1 h3 ihb
      apply le_antisymm
      · simp only [le_min_iff, min_le_iff]
        omega
      · simp only [le_min_iff, min_le_iff]
        omega

/-- The classic Levenshtein distance with unit costs is symmetric. -/
theorem levSpec_comm (a b : List Char) : levenshteinSpec a b = levenshteinSpec b a := by
  induction a generalizing b with
  | nil => rw [levSpec_nil, levSpec_nil_right]
  | cons a0 as iha =>
    induction b with
    | nil => rw [levSpec_nil, levSpec_nil_right]
    | cons b0 bs ihb =>
      rw [levSpec_cons_cons, levSpec_cons_cons b0 a0 bs as,
        iha (b0 :: bs), ← ihb, iha bs]
      rcases eq_or_ne a0 b0 with hab | hab
      · rw [if_pos hab, if_pos hab.symm]
        omega
      · rw [if_neg hab, if_neg (Ne.symm hab)]
        omega

/-- The classic Levenshtein distance never exceeds the longer length. -/
theorem levSpec_le_max (a b : List Char) :
    levenshteinSpec a b ≤ max a.length b.length := by
  induction a generalizing b with
  | nil => rw [levSpec_nil]; omega
  | cons a0 as iha =>
    induction b with
    | nil => rw [levSpec_nil_right]; simp
    | cons b0 bs ihb =>
      rw [levSpec_cons_cons]
      have h1 := iha bs
      have h2 := iha (b0 :: bs)
      simp only [List.length_cons] at h1 h2 ihb ⊢
      rcases eq_or_ne a0 b0 with hab | hab
      · rw [if_pos hab]; omega
      · rw [if_neg hab]; omega

theorem rowFor_head (a t : List Char) (r : List Char) :
    ∃ tl, rowFor a t r = levenshteinSpec a t :: tl := by
  cases r <;> exact ⟨_, rfl⟩

/-- One pass of the inner loop turns the row of `a`-to-prefix distances into
the row of `(a ++ [c1])`-to-prefix distances. -/
theorem levInner_rowFor (c1 : Char) (a : List Char) (r t : List Char) :
    levenshteinSpec (a ++ [c1]) t ::
        levInner c1 r (rowFor a t r) (levenshteinSpec (a ++ [c1]) t) =
      rowFor (a ++ [c1]) t r := by
  induction r generalizing t with
  | nil => simp [levInner, rowFor]
  | cons c2 r2 ih =>
    obtain ⟨tl, htl⟩ := rowFor_head a (t ++ [c2]) r2
    simp only [rowFor]
    rw [htl]
    simp only [levInner]
    rw [← htl, ← levSpec_snoc c1 c2 a t, ih (t ++ [c2])]

/-- The outer loop maps the starting row for a consumed prefix `a` to the row
for `a ++ s1`. -/
theorem levRows_rowFor (s1 s2 a : List Char) :
    levRows s1 s2 a.length (rowFor a [] s2) = rowFor (a ++ s1) [] s2 := by
  induction s1 generalizing a with
  | nil => simp [levRows]
  | cons c1 s1r ih =>
    simp only [levRows]
    have hrow : (a.length + 1) :: levInner c1 s2 (rowFor a [] s2) (a.length + 1) =
        rowFor (a ++ [c1]) [] s2 := by
      have h := levInner_rowFor c1 a s2 []
      rw [levSpec_nil_right] at h
      simpa using h
    rw [hrow]
    have h2 := ih (a ++ [c1])
    simp only [List.length_append, List.length_cons, List.length_nil,
      List.append_assoc, List.singleton_append] at h2 ⊢
    exact h2

theorem rowFor_getLastD (a : List Char) (r t : List Char) (d : ℕ) :
    (rowFor a t r).getLastD d = levenshteinSpec a (t ++ r) := by
  induction r generalizing t d with
  | nil => simp [rowFor]
  | cons c r2 ih =>
    simp only [rowFor, List.getLastD_cons]
    rw [ih]
    simp

theorem rowFor_nil_range (r t : List Char) :
    rowFor [] t r = List.range' t.length (r.length + 1) := by
  induction r generalizing t with
  | nil => simp [rowFor, levSpec_nil]
  | cons c r2 ih =>
    simp only [rowFor, levSpec_nil, List.length_cons]
    rw [ih (t ++ [c])]
    simp [List.range'_succ]

theorem levenshteinGo_correct (s1 s2 : List Char) :
    levenshteinGo s1 s2 = levenshteinSpec s1 s2 := by
  unfold levenshteinGo
  by_cases h : s2.length = 0
  · rw [if_pos h, List.length_eq_zero.mp h, levSpec_nil_right]
  · rw [if_neg h]
    have hr : List.range (s2.length + 1) = rowFor [] [] s2 := by
      rw [rowFor_nil_range]
      simp [List.range_eq_range']
    rw [hr]
    have h2 := levRows_rowFor s1 s2 []
    simp only [List.length_nil, List.nil_append] at h2
    rw [h2, rowFor_getLastD]
    simp

/-- The embedded `calculate_levenshtein_distance` computes the classic
Levenshtein distance (helper shared by several developments below). -/
theorem calcLev_eq_spec (s1 s2 : String) :
    calculate_levenshtein_distance s1 s2 = levenshteinSpec s1.data s2.data := by
  unfold calculate_levenshtein_distance
  by_cases h : s1.data.length < s2.data.length
  · rw [if_pos h, levenshteinGo_correct, levSpec_comm]
  · rw [if_neg h, levenshteinGo_correct]

/-! ## Claim C4 -/

/-- C4: for every pair of strings, the dynamic-programming routine computes
the classic Levenshtein edit distance (insertion, deletion and substitution
each cost 1), and the result is a non-negative integer (it lives in `ℕ`). -/
theorem c4_levenshtein_correct (s1 s2 : String) :
    calculate_levenshtein_distance s1 s2 = levenshteinSpec s1.data s2.data ∧
    0 ≤ calculate_levenshtein_distance s1 s2 :=
  ⟨calcLev_eq_spec s1 s2, Nat.zero_le _⟩

/-! ## Claim C5 -/

/-- C5: the tokenizer's test vectors: the empty identifier tokenizes to the
empty sequence (without error) and `"XMLHttpRequest2"` tokenizes to
`["xml", "http", "request", "2"]` (the acronym rule having applied before the
camelCase rule). -/
theorem c5_tokenize_vectors :
    tokenize "" = [] ∧
    tokenize "XMLHttpRequest2" = ["xml", "http", "request", "2"] := by
  constructor
  · rfl
  · decide

/-! ## Claim C1 -/

/-- C1 (counterexample): on a suggestion list whose first entry is invalid
and which carries five further valid entries, the claimed scan discipline
(skip invalid entries without spending the cap) would produce all five later
names, but the code truncates to the first five entries before filtering and
so returns only four. -/
theorem c1_counterexample :
    claimExtract
        [JVal.null, .obj [("name", .str "a")], .obj [("name", .str "b")],
         .obj [("name", .str "c")], .obj [("name", .str "d")],
         .obj [("name", .str "e")]] 5 = ["a", "b", "c", "d", "e"] ∧
    extract_valid_candidates
        (.arr [JVal.null, .obj [("name", .str "a")], .obj [("name", .str "b")],
               .obj [("name", .str "c")], .obj [("name", .str "d")],
               .obj [("name", .str "e")]]) 5 = ["a", "b", "c", "d"] ∧
    extract_valid_candidates
        (.arr [JVal.null, .obj [("name", .str "a")], .obj [("name", .str "b")],
               .obj [("name", .str "c")], .obj [("name", .str "d")],
               .obj [("name", .str "e")]]) 5 ≠
      claimExtract
        [JVal.null, .obj [("name", .str "a")], .obj [("name", .str "b")],
         .obj [("name", .str "c")], .obj [("name", .str "d")],
         .obj [("name", .str "e")]] 5 := by
  refine ⟨by decide, by decide, by decide⟩

/-- C1 (amended): the extraction stage examines only the first `cap` entries
of the suggestion list, in rank order; invalid entries among them are skipped
silently but still consume part of the cap, so the result is the valid
candidates of the first `cap` positions, and never more than `cap` of them. -/
theorem c1_extract_amended (l : List JVal) (cap : ℕ) :
    extract_valid_candidates (.arr l) cap = scanCandidates l cap ∧
    (extract_valid_candidates (.arr l) cap).length ≤ cap := by
  constructor
  · show ((l.take cap).filter is_valid_suggestion).map (fun s => jstr (nameOf s)) =
      scanCandidates l cap
    induction l generalizing cap with
    | nil => cases cap <;> simp [scanCandidates]
    | cons s rest ih =>
      cases cap with
      | zero => simp [scanCandidates]
      | succ c =>
        by_cases hv : is_valid_suggestion s <;>
          simp [hv, scanCandidates, ih]
  · have h1 : (extract_valid_candidates (.arr l) cap).length ≤ (l.take cap).length := by
      show (((l.take cap).filter is_valid_suggestion).map _).length ≤ _
      rw [List.length_map]
      exact List.length_filter_le _ _
    have h2 : (l.take cap).length ≤ cap := by
      rw [List.length_take]
      omega
    omega

/-- C1 witness for the amended theorem's concrete behaviour: on a list with
an invalid head and five later valid entries, the scan with cap 5 returns the
four valid names among the first five entries. -/
theorem c1_extract_amended_witness :
    scanCandidates
        [JVal.null, .obj [("name", .str "a")], .obj [("name", .str "b")],
         .obj [("name", .str "c")], .obj [("name", .str "d")],
         .obj [("name", .str "e")]] 5 = ["a", "b", "c", "d"] ∧
    extract_valid_candidates
        (.arr [JVal.null, .obj [("name", .str "a")], .obj [("name", .str "b")],
               .obj [("name", .str "c")], .obj [("name", .str "d")],
               .obj [("name", .str "e")]]) 5 =
      scanCandidates
        [JVal.null, .obj [("name", .str "a")], .obj [("name", .str "b")],
         .obj [("name", .str "c")], .obj [("name", .str "d")],
         .obj [("name", .str "e")]] 5 :=
  ⟨by decide,
   (c1_extract_amended
      [JVal.null, .obj [("name", .str "a")], .obj [("name", .str "b")],
       .obj [("name", .str "c")], .obj [("name", .str "d")],
       .obj [("name", .str "e")]] 5).1⟩

/-! ## Claim C10 -/

/-- C10: a suggestion object whose `name` value is non-null is valid whatever
the value's type (including the integer `0`, the empty string, a list or a
nested object — no emptiness or truthiness test is involved), an explicit
null or a missing field or a non-object entry is invalid, and extraction
string-coerces the value before evaluation. -/
theorem c10_validity_null_check :
    (∀ (fields : List (String × JVal)) (v : JVal),
        lookupField fields "name" = some v → v.isNull = false →
        is_valid_suggestion (.obj fields) = true) ∧
    is_valid_suggestion (.obj [("name", .num 0)]) = true ∧
    is_valid_suggestion (.obj [("name", .str "")]) = true ∧
    is_valid_suggestion (.obj [("name", .arr [])]) = true ∧
    is_valid_suggestion (.obj [("name", .obj [])]) = true ∧
    is_valid_suggestion (.obj [("name", .null)]) = false ∧
    is_valid_suggestion (.obj []) = false ∧
    is_valid_suggestion (.str "name") = false ∧
    extract_valid_candidates (.arr [.obj [("name", .num 0)]]) 5 = ["0"] := by
  refine ⟨?_, by decide, by decide, by decide, by decide, by decide, by decide,
    by decide, by decide⟩
  intro fields v hl hn
  show is_valid_suggestion (.obj fields) = true
  simp only [is_valid_suggestion]
  rw [hl]
  simp [hn]

/-- C10 witness: the universal part instantiated at a concrete object whose
`name` value is the integer `0`. -/
theorem c10_validity_null_check_witness :
    lookupField [("name", JVal.num 0)] "name" = some (JVal.num 0) ∧
    (JVal.num 0).isNull = false ∧
    is_valid_suggestion (.obj [("name", JVal.num 0)]) = true :=
  ⟨rfl, rfl,
   c10_validity_null_check.1 [("name", JVal.num 0)] (JVal.num 0) rfl rfl⟩

/-! ## Claim C2 -/

theorem keyLt_irrefl (p : ℚ × ℚ × ℚ × ℚ) : ¬ keyLt p p := by
  simp [keyLt]

theorem keyLt_trans {p q r : ℚ × ℚ × ℚ × ℚ}
    (h1 : keyLt p q) (h2 : keyLt q r) : keyLt p r := by
  obtain ⟨p1, p2, p3, p4⟩ := p
  obtain ⟨q1, q2, q3, q4⟩ := q
  obtain ⟨r1, r2, r3, r4⟩ := r
  simp only [keyLt] at h1 h2 ⊢
  rcases h1 with h1 | ⟨e1, h1⟩ <;> rcases h2 with h2 | ⟨e2, h2⟩
  · exact Or.inl (h1.trans h2)
  · exact Or.inl (lt_of_lt_of_eq h1 e2)
  · exact Or.inl (lt_of_eq_of_lt e1 h2)
  · right
    refine ⟨e1.trans e2, ?_⟩
    rcases h1 with h1 | ⟨f1, h1⟩ <;> rcases h2 with h2 | ⟨f2, h2⟩
    · exact Or.inl (h1.trans h2)
    · exact Or.inl (lt_of_lt_of_eq h1 f2)
    · exact Or.inl (lt_of_eq_of_lt f1 h2)
    · right
      refine ⟨f1.trans f2, ?_⟩
      rcases h1 with h1 | ⟨g1, h1⟩ <;> rcases h2 with h2 | ⟨g2, h2⟩
      · exact Or.inl (h1.trans h2)
      · exact Or.inl (lt_of_lt_of_eq h1 g2)
      · exact Or.inl (lt_of_eq_of_lt g1 h2)
      · exact Or.inr ⟨g1.trans g2, h1.trans h2⟩

theorem keyLt_trichotomy (p q : ℚ × ℚ × ℚ × ℚ) :
    keyLt p q ∨ p = q ∨ keyLt q p := by
  obtain ⟨p1, p2, p3, p4⟩ := p
  obtain ⟨q1, q2, q3, q4⟩ := q
  simp only [keyLt, Prod.mk.injEq]
  rcases lt_trichotomy p1 q1 with h1 | h1 | h1
  · exact Or.inl (Or.inl h1)
  · rcases lt_trichotomy p2 q2 with h2 | h2 | h2
    · exact Or.inl (Or.inr ⟨h1, Or.inl h2⟩)
    · rcases lt_trichotomy p3 q3 with h3 | h3 | h3
      · exact Or.inl (Or.inr ⟨h1, Or.inr ⟨h2, Or.inl h3⟩⟩)
      · rcases lt_trichotomy p4 q4 with h4 | h4 | h4
        · exact Or.inl (Or.inr ⟨h1, Or.inr ⟨h2, Or.inr ⟨h3, h4⟩⟩⟩)
        · exact Or.inr (Or.inl ⟨h1, h2, h3, h4⟩)
        · exact Or.inr (Or.inr (Or.inr ⟨h1.symm, Or.inr ⟨h2.symm, Or.inr ⟨h3.symm, h4⟩⟩⟩))
      · exact Or.inr (Or.inr (Or.inr ⟨h1.symm, Or.inr ⟨h2.symm, Or.inl h3⟩⟩))
    · exact Or.inr (Or.inr (Or.inr ⟨h1.symm, Or.inl h2⟩))
  · exact Or.inr (Or.inr (Or.inl h1))

theorem keyLt_ne {p q : ℚ × ℚ × ℚ × ℚ} (h : keyLt p q) : p ≠ q :=
  fun he => keyLt_irrefl q (he ▸ h)

/-- Invariant of the fold implementing Python `max(..., key=...)`: either no
element strictly exceeded the running best (the best is returned and bounds
every element), or the first element that strictly exceeds everything before
it is returned. -/
theorem maxByKey_spec (rest : List MetricResult) (best : MetricResult) :
    (maxByKey rest best = best ∧
      ∀ x ∈ rest, keyLe (metricKey x) (metricKey best)) ∨
    (∃ l1 b l2, rest = l1 ++ b :: l2 ∧ maxByKey rest best = b ∧
      keyLt (metricKey best) (metricKey b) ∧
      (∀ x ∈ l1, keyLt (metricKey x) (metricKey b)) ∧
      (∀ x ∈ l2, keyLe (metricKey x) (metricKey b))) := by
  induction rest generalizing best with
  | nil => exact Or.inl ⟨rfl, by simp⟩
  | cons r rest ih =>
    by_cases hlt : keyLt (metricKey best) (metricKey r)
    · have hstep : maxByKey (r :: rest) best = maxByKey rest r := by
        simp [maxByKey, hlt]
      rcases ih r with ⟨heq, hall⟩ | ⟨l1, b, l2, hsplit, hres, hgt, hl1, hl2⟩
      · exact Or.inr ⟨[], r, rest, rfl, by rw [hstep, heq], hlt, by simp, hall⟩
      · refine Or.inr ⟨r :: l1, b, l2, by simp [hsplit], by rw [hstep, hres],
          keyLt_trans hlt hgt, ?_, hl2⟩
        intro x hx
        rcases List.mem_cons.mp hx with hx | hx
        · subst hx; exact hgt
        · exact hl1 x hx
    · have hstep : maxByKey (r :: rest) best = maxByKey rest best := by
        simp [maxByKey, hlt]
      rcases ih best with ⟨heq, hall⟩ | ⟨l1, b, l2, hsplit, hres, hgt, hl1, hl2⟩
      · refine Or.inl ⟨by rw [hstep, heq], ?_⟩
        intro x hx
        rcases List.mem_cons.mp hx with hx | hx
        · subst hx
          rcases keyLt_trichotomy (metricKey x) (metricKey best) with h | h | h
          · exact Or.inl h
          · exact Or.inr h
          · exact absurd h hlt
        · exact hall x hx
      · refine Or.inr ⟨r :: l1, b, l2, by simp [hsplit], by rw [hstep, hres], hgt, ?_, hl2⟩
        intro x hx
        rcases List.mem_cons.mp hx with hx | hx
        · subst hx
          rcases keyLt_trichotomy (metricKey x) (metricKey best) with h | h | h
          · exact keyLt_trans h hgt
          · exact h.symm ▸ hgt
          · exact absurd h hlt
        · exact hl1 x hx

/-- `find?` returns the marked element when every earlier element fails the
predicate and the marked one satisfies it. -/
theorem find?_append_first {p : MetricResult → Bool} (l1 : List MetricResult)
    (b : MetricResult) (l2 : List MetricResult)
    (h1 : ∀ x ∈ l1, p x = false) (hb : p b = true) :
    List.find? p (l1 ++ b :: l2) = some b := by
  induction l1 with
  | nil => simp [List.find?_cons, hb]
  | cons a l ih =>
    have ha := h1 a (List.mem_cons_self a l)
    simp only [List.cons_append, List.find?_cons, ha]
    exact ih (fun x hx => h1 x (List.mem_cons_of_mem a hx))

/-- C2: on a non-empty list of evaluated metric tuples the selector returns a
member of the list that is maximal under the lexicographic key
`(token_f1, exact_match, edit_similarity, token_precision)` (descending), and
among the key-equal maxima the earliest in rank order (it is the first
element whose key equals the winner's); on the empty list it returns the
all-zero tuple. -/
theorem c2_best_candidate :
    (∀ l : List MetricResult, l ≠ [] →
      determine_best_candidate l ∈ l ∧
      (∀ x ∈ l, keyLe (metricKey x) (metricKey (determine_best_candidate l))) ∧
      l.find? (fun x => decide (metricKey x = metricKey (determine_best_candidate l))) =
        some (determine_best_candidate l)) ∧
    determine_best_candidate [] = MetricResult.empty ∧
    MetricResult.empty = ⟨0, 0, 0, 0, 0⟩ := by
  refine ⟨?_, rfl, rfl⟩
  intro l hl
  match l with
  | [] => exact absurd rfl hl
  | r :: rest =>
    have hdef : determine_best_candidate (r :: rest) = maxByKey rest r := rfl
    rcases maxByKey_spec rest r with ⟨heq, hall⟩ | ⟨l1, b, l2, hsplit, hres, hgt, hl1, hl2⟩
    · rw [hdef, heq]
      refine ⟨List.mem_cons_self r rest, ?_, ?_⟩
      · intro x hx
        rcases List.mem_cons.mp hx with hx | hx
        · subst hx; exact Or.inr rfl
        · exact hall x hx
      · simp [List.find?_cons]
    · rw [hdef, hres]
      subst hsplit
      refine ⟨by simp, ?_, ?_⟩
      · intro x hx
        rcases List.mem_cons.mp hx with hx | hx
        · subst hx; exact Or.inl hgt
        · rcases List.mem_append.mp hx with hx | hx
          · exact Or.inl (hl1 x hx)
          · rcases List.mem_cons.mp hx with hx | hx
            · subst hx; exact Or.inr rfl
            · exact hl2 x hx
      · have hr : (fun x => decide (metricKey x = metricKey b)) r = false :=
          decide_eq_false (keyLt_ne hgt)
        have hcons : (r :: (l1 ++ b :: l2)) = (r :: l1) ++ b :: l2 := by simp
        rw [hcons]
        apply find?_append_first
        · intro x hx
          rcases List.mem_cons.mp hx with hx | hx
          · subst hx; exact hr
          · exact decide_eq_false (keyLt_ne (hl1 x hx))
        · exact decide_eq_true rfl

/-- C2 witness: a concrete two-element list where the second tuple has the
larger key; the selector returns it, it bounds both, and it is the first
element with the maximal key. -/
theorem c2_best_candidate_witness :
    (([⟨0, 0, 0, 0, 0⟩, ⟨1, 1, 1, 1, 1⟩] : List MetricResult) ≠ []) ∧
    (determine_best_candidate [⟨0, 0, 0, 0, 0⟩, ⟨1, 1, 1, 1, 1⟩] ∈
        ([⟨0, 0, 0, 0, 0⟩, ⟨1, 1, 1, 1, 1⟩] : List MetricResult) ∧
      (∀ x ∈ ([⟨0, 0, 0, 0, 0⟩, ⟨1, 1, 1, 1, 1⟩] : List MetricResult),
        keyLe (metricKey x)
          (metricKey (determine_best_candidate [⟨0, 0, 0, 0, 0⟩, ⟨1, 1, 1, 1, 1⟩]))) ∧
      List.find?
          (fun x => decide (metricKey x =
            metricKey (determine_best_candidate [⟨0, 0, 0, 0, 0⟩, ⟨1, 1, 1, 1, 1⟩])))
          [⟨0, 0, 0, 0, 0⟩, ⟨1, 1, 1, 1, 1⟩] =
        some (determine_best_candidate [⟨0, 0, 0, 0, 0⟩, ⟨1, 1, 1, 1, 1⟩])) :=
  ⟨by simp, c2_best_candidate.1 [⟨0, 0, 0, 0, 0⟩, ⟨1, 1, 1, 1, 1⟩] (by simp)⟩

/-! ## Claims C3 and C6: token metrics -/

theorem dedup_toFinset (l : List String) : l.dedup.toFinset = l.toFinset := by
  ext a
  simp [List.mem_toFinset, List.mem_dedup]

/-- A sum of `f` over the deduplicated token list is the `Finset` sum over
the list's distinct tokens. -/
theorem sum_dedup_eq_finset (l : List String) (f : String → ℕ) :
    (l.dedup.map f).sum = ∑ t ∈ l.toFinset, f t := by
  rw [← List.sum_toFinset f (List.nodup_dedup l), dedup_toFinset]

/-- `sum(Counter(l).values())` is the number of tokens. -/
theorem bagTotal_card (l : List String) :
    bagTotal l = Multiset.card (l : Multiset String) := by
  unfold bagTotal
  rw [sum_dedup_eq_finset, ← Multiset.toFinset_sum_count_eq (l : Multiset String),
    List.toFinset_coe]
  apply Finset.sum_congr rfl
  intro t _
  rw [Multiset.coe_count]

/-- `sum((Counter(g) & Counter(p)).values())` is the size of the multiset
intersection of the two token bags. -/
theorem interTotal_card_inter (g p : List String) :
    interTotal g p = Multiset.card ((g : Multiset String) ∩ (p : Multiset String)) := by
  unfold interTotal
  rw [sum_dedup_eq_finset,
    ← Multiset.toFinset_sum_count_eq ((g : Multiset String) ∩ (p : Multiset String))]
  have hsub : ((g : Multiset String) ∩ (p : Multiset String)).toFinset ⊆ g.toFinset := by
    intro t ht
    rw [Multiset.mem_toFinset] at ht
    rw [List.mem_toFinset]
    have hmem := Multiset.mem_of_le (Multiset.inter_le_left _ _) ht
    simpa using hmem
  rw [Finset.sum_subset hsub]
  · apply Finset.sum_congr rfl
    intro t _
    rw [Multiset.count_inter, Multiset.coe_count, Multiset.coe_count]
  · intro t _ hnt
    rw [Multiset.count_eq_zero]
    intro hmem
    exact hnt (by rw [Multiset.mem_toFinset]; exact hmem)

/-- The code's intersection total equals the spec's
`I = Σ min(G[t], P[t])` over all tokens of either bag. -/
theorem interTotal_eq_ref (g p : List String) :
    interTotal g p =
      refIntersection (g : Multiset String) (p : Multiset String) := by
  unfold interTotal refIntersection
  rw [sum_dedup_eq_finset]
  simp only [Multiset.coe_count, List.toFinset_coe]
  apply Finset.sum_subset
  · exact Finset.subset_union_left
  · intro t _ hnt
    have hz : g.count t = 0 := by
      rw [List.count_eq_zero]
      intro hmem
      exact hnt (List.mem_toFinset.mpr hmem)
    rw [hz]
    simp

theorem interTotal_le_right (g p : List String) : interTotal g p ≤ bagTotal p := by
  rw [interTotal_card_inter, bagTotal_card]
  exact Multiset.card_le_card (Multiset.inter_le_right _ _)

theorem interTotal_le_left (g p : List String) : interTotal g p ≤ bagTotal g := by
  rw [interTotal_card_inter, bagTotal_card]
  exact Multiset.card_le_card (Multiset.inter_le_left _ _)

/-- The token fields of the evaluator agree with the reference definitions
over the two token bags (shared helper). -/
theorem evaluate_token_ref (gt pred : String) :
    (evaluate gt pred).token_precision = refPrecision gt pred ∧
    (evaluate gt pred).token_recall = refRecall gt pred ∧
    (evaluate gt pred).token_f1 = refF1 gt pred := by
  have hp : bagTotal (tokenize pred) = Multiset.card (tokenBag pred) := bagTotal_card _
  have hg : bagTotal (tokenize gt) = Multiset.card (tokenBag gt) := bagTotal_card _
  have hi : interTotal (tokenize gt) (tokenize pred) =
      refIntersection (tokenBag gt) (tokenBag pred) := interTotal_eq_ref _ _
  have hprec : (evaluate gt pred).token_precision = refPrecision gt pred := by
    simp only [evaluate]
    rw [hp, hi]
    unfold refPrecision
    rcases Nat.eq_zero_or_pos (Multiset.card (tokenBag pred)) with h | h
    · rw [if_pos h, if_neg (by omega)]
    · rw [if_neg (by omega), if_pos h]
  have hrecl : (evaluate gt pred).token_recall = refRecall gt pred := by
    simp only [evaluate]
    rw [hg, hi]
    unfold refRecall
    rcases Nat.eq_zero_or_pos (Multiset.card (tokenBag gt)) with h | h
    · rw [if_pos h, if_neg (by omega)]
    · rw [if_neg (by omega), if_pos h]
  refine ⟨hprec, hrecl, ?_⟩
  have hprec2 := hprec
  have hrecl2 := hrecl
  simp only [evaluate] at hprec2 hrecl2 ⊢
  rw [hprec2, hrecl2, hg, hp]
  unfold refF1
  rfl

/-- C3: the token fields of the evaluator equal the reference definitions
over the two token bags: precision is `I/|P|` when `|P| > 0` and `0`
otherwise, recall is `I/|G|` when `|G| > 0` and `0` otherwise, and F1 is `1`
when both bags are empty, `0` when precision + recall is zero, and the
harmonic mean otherwise; all functions involved are total, so no input
(including empty strings) raises an error. -/
theorem c3_evaluate_token_fields (gt pred : String) :
    (evaluate gt pred).token_precision = refPrecision gt pred ∧
    (evaluate gt pred).token_recall = refRecall gt pred ∧
    (evaluate gt pred).token_f1 = refF1 gt pred :=
  evaluate_token_ref gt pred

/-- The normalized similarity always lies in `[0, 1]`. -/
theorem similarity_bounds (s1 s2 : String) :
    0 ≤ calculate_similarity s1 s2 ∧ calculate_similarity s1 s2 ≤ 1 := by
  unfold calculate_similarity
  split_ifs with h1 h2
  · constructor <;> norm_num
  · constructor <;> norm_num
  · have hd : calculate_levenshtein_distance s1 s2 ≤ max s1.data.length s2.data.length := by
      rw [calcLev_eq_spec]
      exact levSpec_le_max _ _
    have hmax : 0 < max s1.data.length s2.data.length := Nat.pos_of_ne_zero h2
    have hcast : (0 : ℚ) < ((max s1.data.length s2.data.length : ℕ) : ℚ) := by
      exact_mod_cast hmax
    have hdle : ((calculate_levenshtein_distance s1 s2 : ℕ) : ℚ) ≤
        ((max s1.data.length s2.data.length : ℕ) : ℚ) := by
      exact_mod_cast hd
    constructor
    · have hq : (calculate_levenshtein_distance s1 s2 : ℚ) /
          ((max s1.data.length s2.data.length : ℕ) : ℚ) ≤ 1 :=
        (div_le_one hcast).mpr hdle
      linarith
    · have h0 : (0 : ℚ) ≤ (calculate_levenshtein_distance s1 s2 : ℚ) := by positivity
      have hq : 0 ≤ (calculate_levenshtein_distance s1 s2 : ℚ) /
          ((max s1.data.length s2.data.length : ℕ) : ℚ) :=
        div_nonneg h0 (le_of_lt hcast)
      linarith

/-- The reference precision lies in `[0, 1]`. -/
theorem refPrecision_bounds (gt pred : String) :
    0 ≤ refPrecision gt pred ∧ refPrecision gt pred ≤ 1 := by
  unfold refPrecision
  split_ifs with h
  · have hle : refIntersection (tokenBag gt) (tokenBag pred) ≤
        Multiset.card (tokenBag pred) := by
      have h1 : interTotal (tokenize gt) (tokenize pred) =
          refIntersection (tokenBag gt) (tokenBag pred) := interTotal_eq_ref _ _
      have h2 : bagTotal (tokenize pred) = Multiset.card (tokenBag pred) := bagTotal_card _
      rw [← h1, ← h2]
      exact interTotal_le_right _ _
    constructor
    · positivity
    · rw [div_le_one (by exact_mod_cast h)]
      exact_mod_cast hle
  · constructor <;> norm_num

/-- The reference recall lies in `[0, 1]`. -/
theorem refRecall_bounds (gt pred : String) :
    0 ≤ refRecall gt pred ∧ refRecall gt pred ≤ 1 := by
  unfold refRecall
  split_ifs with h
  · have hle : refIntersection (tokenBag gt) (tokenBag pred) ≤
        Multiset.card (tokenBag gt) := by
      have h1 : interTotal (tokenize gt) (tokenize pred) =
          refIntersection (tokenBag gt) (tokenBag pred) := interTotal_eq_ref _ _
      have h2 : bagTotal (tokenize gt) = Multiset.card (tokenBag gt) := bagTotal_card _
      rw [← h1, ← h2]
      exact interTotal_le_left _ _
    constructor
    · positivity
    · rw [div_le_one (by exact_mod_cast h)]
      exact_mod_cast hle
  · constructor <;> norm_num

/-- Harmonic-mean bound: for precision and recall in `[0, 1]` with nonzero
sum, `2*(P*R)/(P+R)` lies in `[0, 1]`. -/
theorem f1_bounds_helper (P R : ℚ) (hP0 : 0 ≤ P) (hP1 : P ≤ 1) (hR0 : 0 ≤ R)
    (hR1 : R ≤ 1) (h2 : P + R ≠ 0) :
    0 ≤ 2 * (P * R) / (P + R) ∧ 2 * (P * R) / (P + R) ≤ 1 := by
  have hPR : 0 < P + R := lt_of_le_of_ne (add_nonneg hP0 hR0) (Ne.symm h2)
  constructor
  · exact div_nonneg (by nlinarith [mul_nonneg hP0 hR0]) (le_of_lt hPR)
  · rw [div_le_one hPR]
    nlinarith [mul_nonneg (sub_nonneg.mpr hP1) hR0, mul_nonneg (sub_nonneg.mpr hR1) hP0]

/-- C6: every field of the metric tuple lies in `[0, 1]`; `exact_match` is
exactly 0 or 1. -/
theorem c6_metric_bounds (gt pred : String) :
    ((evaluate gt pred).exact_match = 0 ∨ (evaluate gt pred).exact_match = 1) ∧
    0 ≤ (evaluate gt pred).edit_similarity ∧ (evaluate gt pred).edit_similarity ≤ 1 ∧
    0 ≤ (evaluate gt pred).token_precision ∧ (evaluate gt pred).token_precision ≤ 1 ∧
    0 ≤ (evaluate gt pred).token_recall ∧ (evaluate gt pred).token_recall ≤ 1 ∧
    0 ≤ (evaluate gt pred).token_f1 ∧ (evaluate gt pred).token_f1 ≤ 1 := by
  obtain ⟨hprec, hrecl, hf1⟩ := evaluate_token_ref gt pred
  have hem : (evaluate gt pred).exact_match = 0 ∨ (evaluate gt pred).exact_match = 1 := by
    simp only [evaluate]
    by_cases h : gt = pred
    · rw [if_pos h]; right; rfl
    · rw [if_neg h]; left; rfl
  have hes : (evaluate gt pred).edit_similarity = calculate_similarity gt pred := by
    simp only [evaluate]
  have hsim := similarity_bounds gt pred
  have hP := refPrecision_bounds gt pred
  have hR := refRecall_bounds gt pred
  have hf1b : 0 ≤ refF1 gt pred ∧ refF1 gt pred ≤ 1 := by
    unfold refF1
    split_ifs with h1 h2
    · constructor <;> norm_num
    · constructor <;> norm_num
    · exact f1_bounds_helper _ _ hP.1 hP.2 hR.1 hR.2 h2
  rw [hprec, hrecl, hf1, hes]
  exact ⟨hem, hsim.1, hsim.2, hP.1, hP.2, hR.1, hR.2, hf1b.1, hf1b.2⟩

/-! ## Claim C7 -/

/-- C7 (code behaviour at the failing input): on a one-record document the
dict the program writes out contains only `aggregate_performance_metrics`;
the `results` list — though augmented in memory with per-record
`performance_metrics` — is absent from the output document. -/
theorem c7_output_document :
    itemGet (processResult
        (.obj [("results", .arr [.obj [("new_name", .str "a")]])])).1 "results" = none ∧
    (itemGet (processResult
        (.obj [("results", .arr [.obj [("new_name", .str "a")]])])).1
        "aggregate_performance_metrics").isSome = true ∧
    processedRecords (.obj [("results", .arr [.obj [("new_name", .str "a")]])]) =
      [.obj [("new_name", .str "a"),
             ("performance_metrics",
              .obj [("top_1_performance_metrics", metricJson MetricResult.empty),
                    ("top_5_performance_metrics", metricJson MetricResult.empty)])]] :=
  ⟨rfl, rfl, rfl⟩

/-! ## Claim C9 -/

theorem accumAdd_zero (x : Accum) : accumAdd Accum.zero x = x := by
  obtain ⟨a, b, c, d, e⟩ := x
  simp [accumAdd, Accum.zero]

/-- The record loop accumulates exactly the field-wise sums of the per-record
metric tuples (threaded over any starting accumulators). -/
theorem processLoop_sums (rs : List JVal) (a1 a5 : Accum) :
    (processLoop rs a1 a5).2.1 =
      accumAdd a1 (sumAccum (rs.map (fun it => (processItem it).1))) ∧
    (processLoop rs a1 a5).2.2 =
      accumAdd a5 (sumAccum (rs.map (fun it => (processItem it).2))) := by
  induction rs generalizing a1 a5 with
  | nil =>
    constructor <;>
      · obtain ⟨a, b, c, d, e⟩ := a1
        obtain ⟨f, g, h, i, j⟩ := a5
        simp [processLoop, sumAccum, accumAdd]
  | cons it rest ih =>
    obtain ⟨ih1, ih5⟩ := ih (updateAccumulator a1 (processItem it).1)
      (updateAccumulator a5 (processItem it).2)
    constructor
    · show (processLoop rest (updateAccumulator a1 (processItem it).1)
          (updateAccumulator a5 (processItem it).2)).2.1 = _
      rw [ih1]
      obtain ⟨a, b, c, d, e⟩ := a1
      simp [updateAccumulator, accumAdd, sumAccum, add_assoc]
    · show (processLoop rest (updateAccumulator a1 (processItem it).1)
          (updateAccumulator a5 (processItem it).2)).2.2 = _
      rw [ih5]
      obtain ⟨a, b, c, d, e⟩ := a5
      simp [updateAccumulator, accumAdd, sumAccum, add_assoc]

/-- C9: the final averages divide every accumulated field (which equals the
field-wise sum of the per-record metric tuples) by the record count, and on
an empty record list both tiers are the all-zero dict produced without any
division. -/
theorem c9_final_averages (rs : List JVal) :
    (rs = [] →
      calculate_final_averages rs.length (processLoop rs Accum.zero Accum.zero).2.1
          (processLoop rs Accum.zero Accum.zero).2.2 =
        .obj [("top_1_performance_metrics", zeroMetricsJson),
              ("top_5_performance_metrics", zeroMetricsJson)]) ∧
    (rs ≠ [] →
      calculate_final_averages rs.length (processLoop rs Accum.zero Accum.zero).2.1
          (processLoop rs Accum.zero Accum.zero).2.2 =
        .obj [("top_1_performance_metrics",
               avgJson (sumAccum (rs.map (fun it => (processItem it).1))) rs.length),
              ("top_5_performance_metrics",
               avgJson (sumAccum (rs.map (fun it => (processItem it).2))) rs.length)]) := by
  obtain ⟨h1, h5⟩ := processLoop_sums rs Accum.zero Accum.zero
  rw [h1, h5, accumAdd_zero, accumAdd_zero]
  constructor
  · intro he
    subst he
    rfl
  · intro hne
    have hlen : rs.length ≠ 0 := fun h => hne (List.length_eq_zero.mp h)
    unfold calculate_final_averages
    rw [if_neg hlen]

/-- C9 witness: a single record with no suggestions; both accumulated tuples
are zero and the averages divide them by the record count 1. -/
theorem c9_final_averages_witness :
    ([JVal.obj [("new_name", .str "a")]] ≠ ([] : List JVal)) ∧
    calculate_final_averages [JVal.obj [("new_name", .str "a")]].length
        (processLoop [JVal.obj [("new_name", .str "a")]] Accum.zero Accum.zero).2.1
        (processLoop [JVal.obj [("new_name", .str "a")]] Accum.zero Accum.zero).2.2 =
      .obj [("top_1_performance_metrics",
             avgJson (sumAccum ([JVal.obj [("new_name", .str "a")]].map
               (fun it => (processItem it).1))) 1),
            ("top_5_performance_metrics",
             avgJson (sumAccum ([JVal.obj [("new_name", .str "a")]].map
               (fun it => (processItem it).2))) 1)] :=
  ⟨by simp, (c9_final_averages [JVal.obj [("new_name", .str "a")]]).2 (by simp)⟩

/-! ## Claim C8 -/

/-- C8 (code behaviour at the failing inputs): a corrupt document and a
document lacking the `results` key are both reported and stop processing,
but `main` returns normally after printing, so the process exit code is 0,
not non-zero; only a missing input file exits with code 1. -/
theorem c8_fatal_exit_codes :
    (mainProcessed DocumentInput.corruptJson = false ∧
     mainReported DocumentInput.corruptJson = true ∧
     mainExitCode DocumentInput.corruptJson = 0) ∧
    (mainProcessed (.parsed (.obj [("records", .arr [])])) = false ∧
     mainReported (.parsed (.obj [("records", .arr [])])) = true ∧
     mainExitCode (.parsed (.obj [("records", .arr [])])) = 0) ∧
    mainExitCode DocumentInput.missingFile = 1 :=
  ⟨⟨rfl, rfl, rfl⟩, ⟨rfl, rfl, rfl⟩, rfl⟩

end RenameMetrics
